import Mathlib

/-!
Verification of the `blockscopy` tool (`cmd/blockscopy/main.go`).

The development shallowly embeds the copy-decision engine of the tool:
the marker filename codec, the marker resolver, the eligibility filter,
the block copier's path reordering and copy loop, the marker writer and
the tenant allow/deny filter.  Go strings are modelled as `List Char`
(every delimiter handled by the code is a single ASCII byte, so byte-wise
and character-wise processing agree), Go `int64` arithmetic is modelled
as `Int` with explicit wrap-around (`wrap64`), and every fallible
operation takes its outcome from an explicit environment record so that
the pure decision logic can be stated and proved.
-/

/-- Go strings are modelled as lists of characters. -/
abbrev Str := List Char

/-- The delimiter used by Cortex to separate tenants, blocks and objects
(constant `delim = "/"` in the source). -/
def delimS : Str := "/".toList

/-- Name of the block metadata descriptor object
(`block.MetaFilename = "meta.json"` from the Thanos dependency). -/
def metaFilename : Str := "meta.json".toList

/-- Name of the markers directory under a tenant
(`bucketindex.MarkersPathname = "markers"` from the Cortex dependency). -/
def markersPathname : Str := "markers".toList

/-- The literal middle token of copy markers
(constant `CopiedMarkFilename = "copied"` in the source). -/
def copiedMarkFilename : Str := "copied".toList

/-!
ULID codec.  Block identifiers are ULIDs from the external `oklog/ulid`
library (outside this repository).  A ULID value is modelled as a natural
number below `2 ^ 128` (the 16-byte payload read as a big-endian number);
the zero value `ulid.ULID{}` is `0`.  `ulid.Parse` (the non-strict parser
used by the tool) rejects exactly the strings whose length is not 26 or
whose first character is above `'7'`; invalid characters inside the string
are NOT rejected (documented `oklog/ulid` behaviour: such encodings
produce undefined values).  Encoding uses Crockford base32 with the
alphabet below.
-/

/-- Crockford base32 alphabet of `oklog/ulid` (`Encoding` constant). -/
def crockfordChars : List Char := "0123456789ABCDEFGHJKMNPQRSTVWXYZ".toList

/-- Digit-to-character encoding table lookup. Arguments produced by the
encoder are always below 32. -/
def encChar (d : Nat) : Char := crockfordChars.getD d '0'

/-- Character-to-digit decoding table of `oklog/ulid` (`dec` array):
case-insensitive on the Crockford alphabet, `255` (i.e. `0xFF`) for every
other character. -/
def decChar (c : Char) : Nat :=
  let u : Char := if 'a' ≤ c ∧ c ≤ 'z' then Char.ofNat (c.toNat - 32) else c
  match crockfordChars.findIdx? (fun x => x == u) with
  | some i => i
  | none => 255

/-- Base-32 big-endian encoding of `n` into `k` characters (the `k = 26`
instance is `ULID.String()` of `oklog/ulid`). -/
def encodeNat : Nat → Nat → Str
  | 0, _ => []
  | k + 1, n => encodeNat k (n / 32) ++ [encChar (n % 32)]

/-- Base-32 big-endian value of a character list using the `oklog/ulid`
decoding table. -/
def decodeNat (s : Str) : Nat :=
  s.foldl (fun a c => a * 32 + decChar c) 0

/-- Canonical string form of a ULID value (`ULID.String()`). -/
def ulidString (n : Nat) : Str := encodeNat 26 n

/-- Model of non-strict `ulid.Parse`: `none` exactly when the input length
differs from 26 (`ErrDataSize`) or the first character is above `'7'`
(`ErrBigTime`); otherwise the base-32 value truncated to 128 bits. -/
def ulidParse (s : Str) : Option Nat :=
  if s.length = 26 then
    match s.head? with
    | none => none
    | some c => if 55 < c.toNat then none else some (decodeNat s % 2 ^ 128)
  else none

/-- Wrap-around of Go `int64` arithmetic: reduce an unbounded integer into
`[-2^63, 2^63)`. -/
def wrap64 (z : Int) : Int := (z + 2 ^ 63) % 2 ^ 64 - 2 ^ 63

/-!
Go standard-library string helpers used by the marker codec:
`strings.SplitN(name, "-", 3)` and `filepath.Base`.
-/

/-- Split a string at the first `'-'`, returning the parts before and
after it, or `none` if there is no `'-'` (helper for `goSplitN`). -/
def splitFirstDash : Str → Option (Str × Str)
  | [] => none
  | c :: rest =>
    if c = '-' then some ([], rest)
    else
      match splitFirstDash rest with
      | none => none
      | some (a, b) => some (c :: a, b)

/-- Model of Go `strings.SplitN(s, "-", n)` for `n > 0`: at most `n`
substrings, the last one holding the unsplit remainder. -/
def goSplitN (s : Str) : Nat → List Str
  | 0 => []
  | 1 => [s]
  | n + 2 =>
    match splitFirstDash s with
    | none => [s]
    | some (a, b) => a :: goSplitN b (n + 1)

/-- Helper for `goFilepathBase`: remove trailing `'/'` characters. -/
def dropTrailingSlashes (s : Str) : Str :=
  (s.reverse.dropWhile (fun c => c == '/')).reverse

/-- Helper for `goFilepathBase`: keep everything after the last `'/'`. -/
def afterLastSlash (s : Str) : Str :=
  (s.reverse.takeWhile (fun c => !(c == '/'))).reverse

/-- Model of Go `filepath.Base` on slash-separated paths: `"."` for the
empty path, otherwise strip trailing slashes and keep the last path
element, answering `"/"` when only slashes remain. -/
def goFilepathBase (s : Str) : Str :=
  if s = [] then ['.']
  else
    let s1 := dropTrailingSlashes s
    let s2 := afterLastSlash s1
    if s2 = [] then ['/'] else s2

/-!
The marker filename codec of the tool itself
(`CopiedToBucketMarkFilename` / `IsCopiedToBucketMarkFilename`).
-/

/-- Model of `CopiedToBucketMarkFilename`: the path (relative to the
tenant location) of the marker recording that a block was copied to the
given target bucket, `markers/<blockID>-copied-<targetBucket>`. -/
def CopiedToBucketMarkFilename (blockID : Nat) (targetBucket : Str) : Str :=
  markersPathname ++ "/".toList ++ ulidString blockID ++ "-".toList ++
    copiedMarkFilename ++ "-".toList ++ targetBucket

/-- Model of `IsCopiedToBucketMarkFilename`: split on `'-'` into at most
three parts; require exactly three parts, the middle part `"copied"`, and
the base name of the first part to parse as a ULID.  Returns the parsed
block ID and the verbatim target bucket on success, `(false, 0, "")`
otherwise. -/
def IsCopiedToBucketMarkFilename (name : Str) : Bool × Nat × Str :=
  match goSplitN name 3 with
  | [p0, p1, p2] =>
    if p1 ≠ copiedMarkFilename then (false, 0, [])
    else
      match ulidParse (goFilepathBase p0) with
      | none => (false, 0, [])
      | some id => (true, id, p2)
  | _ => (false, 0, [])

/-- Suffix recognised by the external Cortex deletion-marker helper:
`"-" + metadata.DeletionMarkFilename`. -/
def deletionMarkSuffix : Str := "-deletion-mark.json".toList

/-- Model of the external `bucketindex.IsBlockDeletionMarkFilename`
(outside this repository; the spec only requires the boolean result plus
block ID): the name must end in `-deletion-mark.json` and the rest must
parse as a ULID. -/
def IsBlockDeletionMarkFilename (name : Str) : Option Nat :=
  if deletionMarkSuffix.isSuffixOf name then
    ulidParse (name.take (name.length - deletionMarkSuffix.length))
  else none

/-!
Marker resolver (`listBlockMarkersForTenant`): fold the relative names
found under `<tenant>/markers/` into a map from block ID to a
`BlockMarkers` record.  The Go map with its zero-value default is
modelled as a total function `Nat → BlockMarkers` that starts constantly
`{deletion := false, copied := false}`.
-/

/-- Combined marker state of one block (struct `blockMarkers`). -/
structure BlockMarkers where
  deletion : Bool
  copied : Bool
deriving DecidableEq, Repr

/-- Set the `deletion` flag of one block in the marker map. -/
def setDeletion (f : Nat → BlockMarkers) (id : Nat) : Nat → BlockMarkers :=
  fun b => if b = id then { f id with deletion := true } else f b

/-- Set the `copied` flag of one block in the marker map. -/
def setCopied (f : Nat → BlockMarkers) (id : Nat) : Nat → BlockMarkers :=
  fun b => if b = id then { f id with copied := true } else f b

/-- Process one marker name: record a deletion marker if the name is one,
and record a copy marker if the name is one whose target bucket equals
the configured destination bucket (string equality). -/
def applyMarkerName (destinationBucket : Str) (f : Nat → BlockMarkers) (m : Str) :
    Nat → BlockMarkers :=
  let f1 := match IsBlockDeletionMarkFilename m with
    | some id => setDeletion f id
    | none => f
  match IsCopiedToBucketMarkFilename m with
  | (true, id, targetBucket) =>
    if targetBucket = destinationBucket then setCopied f1 id else f1
  | _ => f1

/-- Model of the marker-merging loop of `listBlockMarkersForTenant`,
taking the already-listed relative marker names as input. -/
def resolveMarkers (names : List Str) (destinationBucket : Str) : Nat → BlockMarkers :=
  names.foldl (applyMarkerName destinationBucket) (fun _ => ⟨false, false⟩)

/-- Model of `isAllowedUser`.  The Go maps built from the configured
enabled/disabled user lists are modelled by the lists themselves:
`len(map) > 0` agrees with list non-emptiness and map membership agrees
with list membership. -/
def isAllowedUser (enabled disabled : List Str) (tenantID : Str) : Bool :=
  if 0 < enabled.length ∧ tenantID ∉ enabled then false
  else if 0 < disabled.length ∧ tenantID ∈ disabled then false
  else true

/-!
Block copier (`copySingleBlock`).  The listing of the block directory and
the success of each individual object copy are taken from an environment
record; the effects actually performed (object copies into the
destination bucket, marker writes into the source bucket, metadata reads
from the source bucket) are returned as an explicit log.
-/

/-- Identity of the two buckets handled by the tool. -/
inductive BucketId
  | source
  | dest
deriving DecidableEq, Repr

/-- One observable side effect of a block-processing run.
`copyObject p` is the server-side copy of the object at path `p` from the
source bucket to the identical path `p` in the destination bucket
(`destObj.CopierFrom(srcObj)` in `copySingleBlock`); `writeMarker p` is
the zero-length write of a completion marker at path `p` in the SOURCE
bucket (`uploadCopiedMarkerFile` is called on `sourceBucket` in
`copyBlocks`); `readMeta p` is the read of `meta.json` at path `p` in the
source bucket (`loadMetaJSONFile`). -/
inductive Effect
  | copyObject (fullPath : Str)
  | writeMarker (path : Str)
  | readMeta (path : Str)
deriving DecidableEq, Repr

/-- Bucket written by an effect, if any, together with the path written. -/
def Effect.writeTarget : Effect → Option (BucketId × Str)
  | .copyObject p => some (.dest, p)
  | .writeMarker p => some (.source, p)
  | .readMeta _ => none

/-- Errors of a per-block processing run (`errors.Wrapf` chains in the
source, keeping the data the claims talk about). -/
inductive CopyErr
  | blockIDParseFailed (s : Str)
  | listBlockFailed (tenant : Str) (blockID : Nat)
  | objectCopyFailed (fullPath : Str)
  | metaReadFailed (path : Str)
  | markerWriteFailed (path : Str)
deriving DecidableEq, Repr

/-- Outcome of the per-block processing closure in `copyBlocks`.  The
four skip outcomes and the success outcome all correspond to a `nil`
return in Go (distinguished there by the log line emitted); `failed`
corresponds to a non-nil error return. -/
inductive PBOutcome
  | skippedAlreadyCopied
  | skippedMarkedForDeletion
  | skippedTooShort
  | skippedDryRun
  | copiedOk
  | failed (e : CopyErr)
deriving DecidableEq, Repr

/-- Whether an outcome corresponds to a `nil` (success) return in Go. -/
def PBOutcome.isSuccess : PBOutcome → Bool
  | .failed _ => false
  | _ => true

/-- Per-run configuration fields used by the per-block decision logic
(struct `config`): `minBlockDuration` is a Go `time.Duration`, i.e. an
`int64` count of nanoseconds. -/
structure Config where
  minBlockDuration : Int
  dryRun : Bool
  destBucket : Str

/-- Block metadata descriptor fields used by the tool
(`metadata.Meta`): millisecond epoch timestamps, Go `int64`. -/
structure Meta where
  minTime : Int
  maxTime : Int
deriving DecidableEq, Repr

/-- Environment of one per-block run: results of the object-store
operations the run may perform.  `blockListing` is the recursive listing
of the block directory relative to `<tenant>/<blockID>/` (`none` models a
listing failure), `metaRead` is the parsed `meta.json` (`none` models a
read or decode failure), `copyOk` tells whether the copy of the object at
a given full path succeeds, and `markerWriteOk` whether the marker upload
succeeds. -/
structure BlockEnv where
  blockListing : Option (List Str)
  metaRead : Option Meta
  copyOk : Str → Bool
  markerWriteOk : Bool

/-- Full path of one object of a block:
`tenantID + delim + blockID.String() + delim + p`. -/
def fullObjectPath (tenant blockStr p : Str) : Str :=
  tenant ++ delimS ++ blockStr ++ delimS ++ p

/-- Remove the element at index `ix` of a list (the effect of
`paths = append(paths[:ix], paths[ix+1:]...)` in Go). -/
def removeAt (l : List Str) (ix : Nat) : List Str :=
  l.take ix ++ l.drop (ix + 1)

/-- Faithful model of the reordering loop of `copySingleBlock`:

```
for ix := 0; ix < len(paths); ix++ {
    if paths[ix] == block.MetaFilename && ix < len(paths)-1 {
        paths = append(paths[:ix], paths[ix+1:]...)
        paths = append(paths, block.MetaFilename)
    } else {
        ix++
    }
}
```

Note the index advances on EVERY iteration through the `for` post
statement, and a second time in the `else` branch.  The fuel argument
only bounds the recursion: the index grows by at least one per iteration
while the list keeps its length, so `paths.length + 1` fuel (as supplied
by `reorderPaths`) is never exhausted. -/
def reorderGo : Nat → List Str → Nat → List Str
  | 0, paths, _ => paths
  | fuel + 1, paths, ix =>
    if h : ix < paths.length then
      if paths.get ⟨ix, h⟩ = metaFilename ∧ ix < paths.length - 1 then
        reorderGo fuel (removeAt paths ix ++ [metaFilename]) (ix + 1)
      else
        reorderGo fuel paths (ix + 2)
    else paths

/-- The reordering performed by `copySingleBlock` on the listed paths. -/
def reorderPaths (paths : List Str) : List Str :=
  reorderGo (paths.length + 1) paths 0

/-- Model of the copy loop of `copySingleBlock`: copy each object in
order, aborting with an error naming the full path of the first object
whose copy fails. -/
def copyLoop (copyOk : Str → Bool) (tenant blockStr : Str) :
    List Str → Except CopyErr Unit × List Effect
  | [] => (.ok (), [])
  | p :: rest =>
    let fullPath := fullObjectPath tenant blockStr p
    if copyOk fullPath then
      let r := copyLoop copyOk tenant blockStr rest
      (r.1, .copyObject fullPath :: r.2)
    else (.error (.objectCopyFailed fullPath), [])

/-- Model of `copySingleBlock`: list the block directory recursively,
reorder the paths, then copy them in order. -/
def copySingleBlock (env : BlockEnv) (tenant : Str) (blockID : Nat) :
    Except CopyErr Unit × List Effect :=
  match env.blockListing with
  | none => (.error (.listBlockFailed tenant blockID), [])
  | some paths => copyLoop env.copyOk tenant (ulidString blockID) (reorderPaths paths)

/-- Path of the `meta.json` object of a block (`loadMetaJSONFile`). -/
def metaPathOf (tenant : Str) (blockID : Nat) : Str :=
  tenant ++ delimS ++ ulidString blockID ++ delimS ++ metaFilename

/-- Full path (relative to the bucket root) at which the completion
marker of a block is written (`uploadCopiedMarkerFile`). -/
def markerFullPath (tenant : Str) (blockID : Nat) (destinationBucket : Str) : Str :=
  tenant ++ delimS ++ CopiedToBucketMarkFilename blockID destinationBucket

/-- Block duration computed by `copyBlocks`:
`time.Millisecond * time.Duration(meta.MaxTime-meta.MinTime)` with Go
`int64` wrap-around semantics (`time.Millisecond` is `10^6`
nanoseconds). -/
def blockDurationOf (m : Meta) : Int :=
  wrap64 (1000000 * wrap64 (m.maxTime - m.minTime))

/-- Minimum-duration eligibility step of `copyBlocks` (the
`cfg.minBlockDuration > 0` body): read `meta.json` (propagating a read
failure as an error for the block) and skip the block when its duration
is smaller than the configured minimum.  Returns `none` as first
component when processing continues to the next step. -/
def minDurationCheck (cfg : Config) (env : BlockEnv) (tenant : Str) (blockID : Nat) :
    Option PBOutcome × List Effect :=
  if 0 < cfg.minBlockDuration then
    match env.metaRead with
    | none =>
      (some (.failed (.metaReadFailed (metaPathOf tenant blockID))),
        [.readMeta (metaPathOf tenant blockID)])
    | some m =>
      if blockDurationOf m < cfg.minBlockDuration then
        (some .skippedTooShort, [.readMeta (metaPathOf tenant blockID)])
      else (none, [.readMeta (metaPathOf tenant blockID)])
  else (none, [])

/-- Final phase of the per-block processing: dry-run check, block copy,
marker upload. -/
def copyPhase (cfg : Config) (env : BlockEnv) (tenant : Str) (blockID : Nat)
    (effs : List Effect) : PBOutcome × List Effect :=
  if cfg.dryRun then (.skippedDryRun, effs)
  else
    match copySingleBlock env tenant blockID with
    | (.error e, ceffs) => (.failed e, effs ++ ceffs)
    | (.ok _, ceffs) =>
      if env.markerWriteOk then
        (.copiedOk, effs ++ ceffs ++ [.writeMarker (markerFullPath tenant blockID cfg.destBucket)])
      else
        (.failed (.markerWriteFailed (markerFullPath tenant blockID cfg.destBucket)),
          effs ++ ceffs)

/-- Per-block processing for an already-parsed block ID: the four
eligibility checks of `copyBlocks` in their fixed order (copied marker,
deletion marker, minimum duration, dry run), then the copy and the
marker upload. -/
def processBlockWithID (cfg : Config) (markers : Nat → BlockMarkers) (env : BlockEnv)
    (tenant : Str) (blockID : Nat) : PBOutcome × List Effect :=
  if (markers blockID).copied then (.skippedAlreadyCopied, [])
  else if (markers blockID).deletion then (.skippedMarkedForDeletion, [])
  else
    match minDurationCheck cfg env tenant blockID with
    | (some o, effs) => (o, effs)
    | (none, effs) => copyPhase cfg env tenant blockID effs

/-- Model of the per-block closure of `copyBlocks`: parse the block ID
string (the strings are produced by `ULID.String()` on the listed
blocks), then run the eligibility checks and the copy. -/
def processBlock (cfg : Config) (markers : Nat → BlockMarkers) (env : BlockEnv)
    (tenant : Str) (blockIDStr : Str) : PBOutcome × List Effect :=
  match ulidParse blockIDStr with
  | none => (.failed (.blockIDParseFailed blockIDStr), [])
  | some blockID => processBlockWithID cfg markers env tenant blockID

/-- Writes of the effect log that target the source bucket. -/
def sourceWrites (effs : List Effect) : List Str :=
  effs.filterMap fun e =>
    match e.writeTarget with
    | some (.source, p) => some p
    | _ => none

/-- Writes of the effect log that target the destination bucket. -/
def destWrites (effs : List Effect) : List Str :=
  effs.filterMap fun e =>
    match e.writeTarget with
    | some (.dest, p) => some p
    | _ => none

/-- Replay an effect log onto a pair of object sets: the destination
bucket contents and the source-bucket marker objects (paths are simply
accumulated; nothing is ever removed because the tool has no delete
operation). -/
def applyState (effs : List Effect) (s : List Str × List Str) : List Str × List Str :=
  effs.foldl
    (fun st e =>
      match e with
      | .copyObject p => (p :: st.1, st.2)
      | .writeMarker p => (st.1, p :: st.2)
      | .readMeta _ => st)
    s

/-- Outcome of the startup validation in `main`. -/
inductive MainOutcome
  | earlyExit (code : Nat)
  | proceed
deriving DecidableEq, Repr

/-- Model of the configuration validation at the top of `main`
(lines 100-103): the check runs before the metrics, the HTTP server and
`runCopy`, so an `earlyExit` happens before any copy cycle, any listing
and any write. -/
def mainDecision (sourceBucket destBucket : Str) : MainOutcome :=
  if sourceBucket = [] ∨ destBucket = [] ∨ sourceBucket = destBucket then .earlyExit 1
  else .proceed

/-- Relative name (as listed under `<tenant>/markers/`) of the completion
marker of block `B` for destination `dest`: `<B>-copied-<dest>`. -/
def relCopiedMarkName (B : Nat) (dest : Str) : Str :=
  ulidString B ++ "-".toList ++ copiedMarkFilename ++ "-".toList ++ dest

/-!
Lemmas about the ULID codec.
-/

/-- Decoding inverts encoding on the 32 valid digits. -/
theorem decChar_encChar : ∀ d < 32, decChar (encChar d) = d := by decide

/-- Every character produced by the encoder lies in the Crockford
alphabet. -/
theorem encChar_mem_crockford (d : Nat) : encChar d ∈ crockfordChars := by
  unfold encChar
  rcases Nat.lt_or_ge d crockfordChars.length with h | h
  · rw [List.getD_eq_getElem _ _ h]
    exact List.getElem_mem h
  · rw [List.getD_eq_default _ _ h]
    decide

/-- Characters of the Crockford alphabet are neither `'-'` nor `'/'` and
code at most `'Z'`. -/
theorem crockford_char_facts : ∀ c ∈ crockfordChars, c ≠ '-' ∧ c ≠ '/' := by decide

/-- Length of the base-32 encoding. -/
theorem encodeNat_length (k : Nat) : ∀ n, (encodeNat k n).length = k := by
  induction k with
  | zero => intro n; rfl
  | succ k ih => intro n; simp [encodeNat, ih]

/-- Every character of a base-32 encoding is in the Crockford alphabet. -/
theorem mem_encodeNat_crockford {c : Char} : ∀ k n, c ∈ encodeNat k n → c ∈ crockfordChars := by
  intro k
  induction k with
  | zero => intro n h; simp [encodeNat] at h
  | succ k ih =>
    intro n h
    simp only [encodeNat, List.mem_append, List.mem_singleton] at h
    rcases h with h | h
    · exact ih _ h
    · rw [h]; exact encChar_mem_crockford _

/-- Splitting off the least-significant base-32 digit of a modulus. -/
theorem mod_mul_step (M q r : Nat) (hM : 0 < M) (hr : r < 32) :
    (32 * q + r) % (32 * M) = (q % M) * 32 + r := by
  have h1 : (32 * q) % (32 * M) = 32 * (q % M) := Nat.mul_mod_mul_left 32 q M
  have ha : q % M < M := Nat.mod_lt _ hM
  have hr2 : r % (32 * M) = r := Nat.mod_eq_of_lt (by omega)
  calc (32 * q + r) % (32 * M)
      = ((32 * q) % (32 * M) + r % (32 * M)) % (32 * M) := by rw [Nat.add_mod]
    _ = (32 * (q % M) + r) % (32 * M) := by rw [h1, hr2]
    _ = 32 * (q % M) + r := Nat.mod_eq_of_lt (by omega)
    _ = (q % M) * 32 + r := by ring

/-- Decoding a `k`-character encoding recovers the value modulo `32^k`. -/
theorem decodeNat_encodeNat (k : Nat) : ∀ n, decodeNat (encodeNat k n) = n % 32 ^ k := by
  induction k with
  | zero => intro n; simp [decodeNat, encodeNat]; omega
  | succ k ih =>
    intro n
    have hd : decChar (encChar (n % 32)) = n % 32 :=
      decChar_encChar _ (Nat.mod_lt _ (by norm_num))
    have hM : 0 < 32 ^ k := pow_pos (by norm_num) k
    have h := mod_mul_step (32 ^ k) (n / 32) (n % 32) hM (Nat.mod_lt _ (by norm_num))
    rw [Nat.div_add_mod] at h
    unfold decodeNat at ih ⊢
    rw [encodeNat, List.foldl_append, ih]
    simp only [List.foldl_cons, List.foldl_nil, hd]
    rw [pow_succ, mul_comm (32 ^ k) 32, h]

/-- Head character of a base-32 encoding: the most significant digit. -/
theorem encodeNat_head (k : Nat) :
    ∀ n, (encodeNat (k + 1) n).head? = some (encChar (n / 32 ^ k % 32)) := by
  induction k with
  | zero => intro n; simp [encodeNat]
  | succ k ih =>
    intro n
    have h1 := ih (n / 32)
    rw [show encodeNat (k + 1 + 1) n = encodeNat (k + 1) (n / 32) ++ [encChar (n % 32)] from rfl]
    cases hE : encodeNat (k + 1) (n / 32) with
    | nil => rw [hE] at h1; simp at h1
    | cons c rest =>
      rw [hE] at h1
      simp only [List.head?_cons, Option.some.injEq] at h1
      simp only [List.cons_append, List.head?_cons, Option.some.injEq]
      rw [h1, Nat.div_div_eq_div_mul, ← pow_succ']

/-- Parsing inverts encoding on every 128-bit ULID value. -/
theorem ulidParse_ulidString {n : Nat} (h : n < 2 ^ 128) : ulidParse (ulidString n) = some n := by
  have h32 : (32 : Nat) ^ 25 = 2 ^ 125 := by
    rw [show (32 : Nat) = 2 ^ 5 by norm_num, ← pow_mul]
  have h26 : (32 : Nat) ^ 26 = 2 ^ 130 := by
    rw [show (32 : Nat) = 2 ^ 5 by norm_num, ← pow_mul]
  have hlen : (ulidString n).length = 26 := encodeNat_length 26 n
  have hdig : n / 32 ^ 25 < 8 := by
    rw [h32]
    apply Nat.div_lt_of_lt_mul
    calc n < 2 ^ 128 := h
      _ = 2 ^ 125 * 8 := by norm_num
  have hmod : n / 32 ^ 25 % 32 = n / 32 ^ 25 := Nat.mod_eq_of_lt (by omega)
  have hhead : (ulidString n).head? = some (encChar (n / 32 ^ 25)) := by
    rw [show ulidString n = encodeNat (25 + 1) n from rfl, encodeNat_head, hmod]
  have hsmall : ∀ d < 8, (encChar d).toNat ≤ 55 := by decide
  have hc : (encChar (n / 32 ^ 25)).toNat ≤ 55 := hsmall _ hdig
  unfold ulidParse
  rw [hlen, if_pos rfl, hhead]
  show (if 55 < (encChar (n / 32 ^ 25)).toNat then none
    else some (decodeNat (ulidString n) % 2 ^ 128)) = some n
  rw [if_neg (by omega)]
  rw [show decodeNat (ulidString n) = n % 32 ^ 26 from decodeNat_encodeNat 26 n]
  have e1 : n % 32 ^ 26 = n := by
    rw [h26]
    exact Nat.mod_eq_of_lt (lt_of_lt_of_le h (by norm_num))
  rw [e1, Nat.mod_eq_of_lt h]

/-- The canonical ULID string has 26 characters. -/
theorem ulidString_length (n : Nat) : (ulidString n).length = 26 := encodeNat_length 26 n

/-- The canonical ULID string is nonempty. -/
theorem ulidString_ne_nil (n : Nat) : ulidString n ≠ [] := by
  intro h
  have := ulidString_length n
  rw [h] at this
  simp at this

/-- The canonical ULID string contains no `'-'`. -/
theorem ulidString_no_dash (n : Nat) : ∀ c ∈ ulidString n, c ≠ '-' := fun c hc =>
  (crockford_char_facts c (mem_encodeNat_crockford 26 n hc)).1

/-- The canonical ULID string contains no `'/'`. -/
theorem ulidString_no_slash (n : Nat) : ∀ c ∈ ulidString n, c ≠ '/' := fun c hc =>
  (crockford_char_facts c (mem_encodeNat_crockford 26 n hc)).2

/-- Wrap-around is the identity on values representable in `int64`. -/
theorem wrap64_eq_self {z : Int} (h1 : -(2 ^ 63) ≤ z) (h2 : z < 2 ^ 63) : wrap64 z = z := by
  unfold wrap64
  have hp : (2 : Int) ^ 63 = 9223372036854775808 := by norm_num
  have hq : (2 : Int) ^ 64 = 18446744073709551616 := by norm_num
  rw [hp, hq] at *
  omega

/-!
Lemmas about the split and base-name helpers.
-/

/-- A dash-free string has no first dash. -/
theorem splitFirstDash_of_no_dash : ∀ {s : Str}, (∀ c ∈ s, c ≠ '-') → splitFirstDash s = none := by
  intro s
  induction s with
  | nil => intro _; rfl
  | cons c t ih =>
    intro h
    have hc : c ≠ '-' := h c (by simp)
    simp only [splitFirstDash, if_neg hc, ih fun x hx => h x (by simp [hx])]

/-- Splitting at the first dash after a dash-free head. -/
theorem splitFirstDash_append {a : Str} (b : Str) (h : ∀ c ∈ a, c ≠ '-') :
    splitFirstDash (a ++ '-' :: b) = some (a, b) := by
  induction a with
  | nil => simp [splitFirstDash]
  | cons c t ih =>
    have hc : c ≠ '-' := h c (by simp)
    have ih2 := ih fun x hx => h x (by simp [hx])
    simp only [List.cons_append, splitFirstDash, if_neg hc, List.append_eq, ih2]

/-- Splitting a three-part string on `'-'` with limit three. -/
theorem goSplitN3_eq {p0 mid : Str} (t : Str) (h0 : ∀ c ∈ p0, c ≠ '-')
    (hm : ∀ c ∈ mid, c ≠ '-') :
    goSplitN (p0 ++ '-' :: (mid ++ '-' :: t)) 3 = [p0, mid, t] := by
  show goSplitN _ (1 + 2) = _
  rw [goSplitN, splitFirstDash_append _ h0]
  show _ :: goSplitN _ (0 + 2) = _
  rw [goSplitN, splitFirstDash_append _ hm]
  rfl

/-- A `goSplitN _ 3` result has one, two or three parts. -/
theorem goSplitN3_cases (s : Str) :
    (∃ a, goSplitN s 3 = [a]) ∨ (∃ a b, goSplitN s 3 = [a, b]) ∨
      (∃ a b c, goSplitN s 3 = [a, b, c]) := by
  show (∃ a, goSplitN s (1 + 2) = [a]) ∨ _
  rw [goSplitN]
  cases h1 : splitFirstDash s with
  | none => exact Or.inl ⟨s, rfl⟩
  | some ab =>
    obtain ⟨a, b⟩ := ab
    show _ ∨ (∃ x y, a :: goSplitN b (0 + 2) = [x, y]) ∨ ∃ x y z, a :: goSplitN b (0 + 2) = [x, y, z]
    rw [goSplitN]
    cases h2 : splitFirstDash b with
    | none => exact Or.inr (Or.inl ⟨a, b, rfl⟩)
    | some cd =>
      obtain ⟨c, d⟩ := cd
      exact Or.inr (Or.inr ⟨a, c, d, rfl⟩)

/-- A `takeWhile` walks through a fully-satisfying front part. -/
theorem takeWhile_append_all {p : Char → Bool} {a : Str} (b : Str) (h : ∀ x ∈ a, p x = true) :
    (a ++ b).takeWhile p = a ++ b.takeWhile p := by
  induction a with
  | nil => rfl
  | cons c t ih =>
    have hc : p c = true := h c (by simp)
    simp only [List.cons_append, List.takeWhile_cons_of_pos hc,
      ih fun x hx => h x (by simp [hx])]

/-- Strings without slashes are untouched by `dropTrailingSlashes`. -/
theorem dropTrailingSlashes_no_slash {s : Str} (h : ∀ c ∈ s, c ≠ '/') :
    dropTrailingSlashes s = s := by
  unfold dropTrailingSlashes
  cases hr : s.reverse with
  | nil => simp [hr, List.reverse_eq_nil_iff.mp hr]
  | cons c t =>
    have hc : c ≠ '/' := by
      apply h
      rw [← List.mem_reverse, hr]
      simp
    rw [List.dropWhile_cons_of_neg (by simp [hc]), ← hr, List.reverse_reverse]

/-- Strings without slashes are untouched by `afterLastSlash`. -/
theorem afterLastSlash_no_slash {s : Str} (h : ∀ c ∈ s, c ≠ '/') :
    afterLastSlash s = s := by
  unfold afterLastSlash
  rw [List.takeWhile_eq_self_iff.mpr, List.reverse_reverse]
  intro c hc
  simp only [Bool.not_eq_true']
  exact beq_eq_false_iff_ne.mpr (h c (List.mem_reverse.mp hc))

/-- Base name of a slash-free nonempty path: the path itself. -/
theorem goFilepathBase_no_slash {s : Str} (hne : s ≠ []) (h : ∀ c ∈ s, c ≠ '/') :
    goFilepathBase s = s := by
  unfold goFilepathBase
  rw [if_neg hne]
  simp only [dropTrailingSlashes_no_slash h, afterLastSlash_no_slash h, if_neg hne]

/-- Base name of a path whose last element is slash-free and nonempty:
the last element. -/
theorem goFilepathBase_append {x s : Str} (hne : s ≠ []) (h : ∀ c ∈ s, c ≠ '/') :
    goFilepathBase (x ++ '/' :: s) = s := by
  unfold goFilepathBase
  rw [if_neg (by simp)]
  have hrev : (x ++ '/' :: s).reverse = s.reverse ++ '/' :: x.reverse := by
    simp
  have hdrop : dropTrailingSlashes (x ++ '/' :: s) = x ++ '/' :: s := by
    unfold dropTrailingSlashes
    rw [hrev]
    cases hr : s.reverse with
    | nil => exact absurd (List.reverse_eq_nil_iff.mp hr) hne
    | cons c t =>
      have hc : c ≠ '/' := by
        apply h
        rw [← List.mem_reverse, hr]
        simp
      rw [List.cons_append, List.dropWhile_cons_of_neg (by simp [hc]), ← List.cons_append, ← hr,
        ← hrev, List.reverse_reverse]
  have htake : afterLastSlash (x ++ '/' :: s) = s := by
    unfold afterLastSlash
    rw [hrev, takeWhile_append_all _ (fun c hc => by
      simp only [Bool.not_eq_true']
      exact beq_eq_false_iff_ne.mpr (h c (List.mem_reverse.mp hc)))]
    rw [List.takeWhile_cons_of_neg (by simp), List.append_nil, List.reverse_reverse]
  simp only [hdrop, htake, if_neg hne]

/-!
Lemmas about the marker filename codec and the marker resolver.
-/

/-- The full marker filename is the markers directory followed by the
relative marker name. -/
theorem copiedMark_eq_markers_rel (B : Nat) (dest : Str) :
    CopiedToBucketMarkFilename B dest = markersPathname ++ '/' :: relCopiedMarkName B dest := by
  simp [CopiedToBucketMarkFilename, relCopiedMarkName]

/-- Reduction of the decoder once the split is known to give three parts
with middle `"copied"`. -/
theorem IsCopied_eq_of_split {s p0 p2 : Str}
    (hsplit : goSplitN s 3 = [p0, copiedMarkFilename, p2]) :
    IsCopiedToBucketMarkFilename s =
      (match ulidParse (goFilepathBase p0) with
       | none => (false, 0, [])
       | some id => (true, id, p2)) := by
  unfold IsCopiedToBucketMarkFilename
  rw [hsplit]
  dsimp only
  rw [if_neg (by simp)]

/-- Decoding the relative marker name of block `B` and target `dest`
recovers exactly `(true, B, dest)`. -/
theorem decode_relCopiedMarkName {B : Nat} (hB : B < 2 ^ 128) (dest : Str) :
    IsCopiedToBucketMarkFilename (relCopiedMarkName B dest) = (true, B, dest) := by
  have hsh : relCopiedMarkName B dest
      = ulidString B ++ '-' :: (copiedMarkFilename ++ '-' :: dest) := by
    simp [relCopiedMarkName]
  have hcm : ∀ c ∈ copiedMarkFilename, c ≠ '-' := by decide
  rw [IsCopied_eq_of_split (by rw [hsh]; exact goSplitN3_eq _ (ulidString_no_dash B) hcm)]
  rw [goFilepathBase_no_slash (ulidString_ne_nil B) (ulidString_no_slash B)]
  rw [ulidParse_ulidString hB]

/-- Decoding the output of the encoder recovers `(true, B, dest)`: the
`filepath.Base` call strips the `markers/` directory before parsing. -/
theorem decode_encode_marker {B : Nat} (hB : B < 2 ^ 128) (dest : Str) :
    IsCopiedToBucketMarkFilename (CopiedToBucketMarkFilename B dest) = (true, B, dest) := by
  have hsh : CopiedToBucketMarkFilename B dest
      = (markersPathname ++ '/' :: ulidString B) ++ '-' :: (copiedMarkFilename ++ '-' :: dest) := by
    simp [CopiedToBucketMarkFilename]
  have hcm : ∀ c ∈ copiedMarkFilename, c ≠ '-' := by decide
  have hmk1 : ∀ c ∈ markersPathname, c ≠ '-' := by decide
  have hmk : ∀ c ∈ markersPathname ++ '/' :: ulidString B, c ≠ '-' := by
    intro c hc
    rcases List.mem_append.mp hc with hm | hm
    · exact hmk1 c hm
    · rcases List.mem_cons.mp hm with he | hm2
      · rw [he]; decide
      · exact ulidString_no_dash B c hm2
  rw [IsCopied_eq_of_split (by rw [hsh]; exact goSplitN3_eq _ hmk hcm)]
  rw [goFilepathBase_append (ulidString_ne_nil B) (ulidString_no_slash B)]
  rw [ulidParse_ulidString hB]

/-- Decoding answers `(false, 0, "")` when the split does not produce
three parts whose middle is `"copied"` and whose first part's base name
parses as a ULID. -/
theorem decode_fails {s : Str}
    (h : ∀ p0 t, goSplitN s 3 = [p0, copiedMarkFilename, t] →
      ulidParse (goFilepathBase p0) = none) :
    IsCopiedToBucketMarkFilename s = (false, 0, []) := by
  rcases goSplitN3_cases s with ⟨a, he⟩ | ⟨a, b, he⟩ | ⟨a, b, c, he⟩
  · unfold IsCopiedToBucketMarkFilename
    rw [he]
  · unfold IsCopiedToBucketMarkFilename
    rw [he]
  · by_cases hb : b = copiedMarkFilename
    · subst hb
      rw [IsCopied_eq_of_split he, h a c he]
    · unfold IsCopiedToBucketMarkFilename
      rw [he]
      dsimp only
      rw [if_pos hb]

/-- Setting the deletion flag never changes the copied flag. -/
theorem setDeletion_copied (f : Nat → BlockMarkers) (id B : Nat) :
    ((setDeletion f id) B).copied = (f B).copied := by
  unfold setDeletion
  by_cases h : B = id
  · subst h; simp
  · simp [h]

/-- Setting the copied flag sets it for the named block. -/
theorem setCopied_self (f : Nat → BlockMarkers) (id : Nat) :
    ((setCopied f id) id).copied = true := by
  simp [setCopied]

/-- Setting the copied flag never unsets it. -/
theorem setCopied_mono {f : Nat → BlockMarkers} {B : Nat} (id : Nat)
    (h : (f B).copied = true) : ((setCopied f id) B).copied = true := by
  unfold setCopied
  by_cases hb : B = id
  · subst hb; simp
  · simp [hb, h]

/-- Processing one marker name never unsets a copied flag. -/
theorem applyMarkerName_copied_mono {dest : Str} {f : Nat → BlockMarkers} {B : Nat} (m : Str)
    (h : (f B).copied = true) : ((applyMarkerName dest f m) B).copied = true := by
  unfold applyMarkerName
  have h1 : ∀ g : Nat → BlockMarkers, (g B).copied = true →
      ((match IsCopiedToBucketMarkFilename m with
        | (true, id, targetBucket) => if targetBucket = dest then setCopied g id else g
        | _ => g) B).copied = true := by
    intro g hg
    rcases hc : IsCopiedToBucketMarkFilename m with ⟨b, id, tb⟩
    cases b
    · exact hg
    · dsimp only
      by_cases ht : tb = dest
      · rw [if_pos ht]; exact setCopied_mono id hg
      · rw [if_neg ht]; exact hg
  cases hd : IsBlockDeletionMarkFilename m with
  | none => exact h1 f h
  | some id =>
    refine h1 (setDeletion f id) ?_
    rw [setDeletion_copied]
    exact h

/-- Processing the relative copy-marker name of block `B` for the
configured destination sets the copied flag of `B`. -/
theorem applyMarkerName_trigger {dest : Str} {f : Nat → BlockMarkers} {B : Nat}
    (hB : B < 2 ^ 128) :
    ((applyMarkerName dest f (relCopiedMarkName B dest)) B).copied = true := by
  unfold applyMarkerName
  rw [decode_relCopiedMarkName hB]
  dsimp only
  rw [if_pos rfl]
  exact setCopied_self _ B

/-- The fold of the marker resolver never unsets a copied flag. -/
theorem foldl_applyMarkerName_mono {dest : Str} {B : Nat} :
    ∀ (names : List Str) (f : Nat → BlockMarkers), (f B).copied = true →
      ((names.foldl (applyMarkerName dest) f) B).copied = true := by
  intro names
  induction names with
  | nil => intro f h; exact h
  | cons m rest ih =>
    intro f h
    rw [List.foldl_cons]
    exact ih _ (applyMarkerName_copied_mono m h)

/-- A listing containing the relative copy-marker name of block `B` for
the configured destination resolves to a copied flag for `B`. -/
theorem resolveMarkers_copied_of_mem {names : List Str} {dest : Str} {B : Nat}
    (hB : B < 2 ^ 128) (hmem : relCopiedMarkName B dest ∈ names) :
    (resolveMarkers names dest B).copied = true := by
  unfold resolveMarkers
  suffices h : ∀ (l : List Str) (f : Nat → BlockMarkers), relCopiedMarkName B dest ∈ l →
      ((l.foldl (applyMarkerName dest) f) B).copied = true from h names _ hmem
  intro l
  induction l with
  | nil => intro f h; simp at h
  | cons m rest ih =>
    intro f h
    rw [List.foldl_cons]
    rcases List.mem_cons.mp h with he | hr
    · refine foldl_applyMarkerName_mono rest _ ?_
      rw [← he]
      exact applyMarkerName_trigger hB
    · exact ih _ hr

/-!
Lemmas about the copy loop, the eligibility steps and the effect log.
-/

/-- A copy loop over objects that all copy successfully returns `ok` and
copies them in order. -/
theorem copyLoop_ok {co : Str → Bool} {t b : Str} :
    ∀ {l : List Str}, (∀ q ∈ l, co (fullObjectPath t b q) = true) →
      copyLoop co t b l = (.ok (), l.map fun q => .copyObject (fullObjectPath t b q)) := by
  intro l
  induction l with
  | nil => intro _; rfl
  | cons p rest ih =>
    intro h
    have hp : co (fullObjectPath t b p) = true := h p (by simp)
    simp only [copyLoop, hp, if_pos, List.map_cons]
    rw [ih fun q hq => h q (by simp [hq])]

/-- The copy loop stops at the first failing object, reporting its full
path and having copied exactly the objects before it. -/
theorem copyLoop_fail {co : Str → Bool} {t b : Str} {p : Str} :
    ∀ (pre : List Str) (post : List Str),
      (∀ q ∈ pre, co (fullObjectPath t b q) = true) →
      co (fullObjectPath t b p) = false →
      copyLoop co t b (pre ++ p :: post)
        = (.error (.objectCopyFailed (fullObjectPath t b p)),
           pre.map fun q => .copyObject (fullObjectPath t b q)) := by
  intro pre
  induction pre with
  | nil =>
    intro post _ hp
    simp only [List.nil_append, copyLoop, hp, List.map_nil]
    rfl
  | cons q rest ih =>
    intro post hpre hp
    have hq : co (fullObjectPath t b q) = true := hpre q (by simp)
    simp only [List.cons_append, copyLoop, hq, if_pos, List.map_cons, List.append_eq]
    rw [ih post (fun x hx => hpre x (by simp [hx])) hp]

/-- Every effect of the copy loop is a copy of one of the listed objects. -/
theorem copyLoop_effects {co : Str → Bool} {t b : Str} :
    ∀ (l : List Str), ∀ e ∈ (copyLoop co t b l).2,
      ∃ q ∈ l, e = .copyObject (fullObjectPath t b q) := by
  intro l
  induction l with
  | nil => intro e he; simp [copyLoop] at he
  | cons p rest ih =>
    intro e he
    by_cases hp : co (fullObjectPath t b p) = true
    · simp only [copyLoop, hp, if_pos] at he
      rcases List.mem_cons.mp he with h1 | h2
      · exact ⟨p, by simp, h1⟩
      · obtain ⟨q, hq, he2⟩ := ih e h2
        exact ⟨q, by simp [hq], he2⟩
    · rw [Bool.not_eq_true] at hp
      simp [copyLoop, hp] at he

/-- Every effect of the minimum-duration step is a metadata read. -/
theorem minDurationCheck_effects {cfg : Config} {env : BlockEnv} {t : Str} {B : Nat} :
    ∀ e ∈ (minDurationCheck cfg env t B).2, e = .readMeta (metaPathOf t B) := by
  intro e he
  unfold minDurationCheck at he
  by_cases h0 : 0 < cfg.minBlockDuration
  · rw [if_pos h0] at he
    cases hm : env.metaRead with
    | none => rw [hm] at he; simpa using he
    | some m =>
      rw [hm] at he
      dsimp only at he
      by_cases hd : blockDurationOf m < cfg.minBlockDuration
      · rw [if_pos hd] at he; simpa using he
      · rw [if_neg hd] at he; simpa using he
  · rw [if_neg h0] at he
    simp at he

/-- Replaying a log of pure reads leaves the state unchanged. -/
theorem applyState_of_reads :
    ∀ {effs : List Effect}, (∀ e ∈ effs, ∃ p, e = .readMeta p) →
      ∀ s, applyState effs s = s := by
  intro effs
  induction effs with
  | nil => intro _ s; rfl
  | cons e rest ih =>
    intro h s
    obtain ⟨p, hp⟩ := h e (by simp)
    subst hp
    show applyState rest s = s
    exact ih (fun x hx => h x (by simp [hx])) s

/-- Replaying any effect log never removes an object from the
destination set. -/
theorem applyState_dest_mono :
    ∀ (effs : List Effect) (s : List Str × List Str) (x : Str),
      x ∈ s.1 → x ∈ (applyState effs s).1 := by
  intro effs
  induction effs with
  | nil => intro s x hx; exact hx
  | cons e rest ih =>
    intro s x hx
    cases e with
    | copyObject p => exact ih _ x (by simp [hx])
    | writeMarker p => exact ih _ x hx
    | readMeta p => exact ih _ x hx

/-- Replaying any effect log never removes a marker from the source set. -/
theorem applyState_marker_mono :
    ∀ (effs : List Effect) (s : List Str × List Str) (x : Str),
      x ∈ s.2 → x ∈ (applyState effs s).2 := by
  intro effs
  induction effs with
  | nil => intro s x hx; exact hx
  | cons e rest ih =>
    intro s x hx
    cases e with
    | copyObject p => exact ih _ x hx
    | writeMarker p => exact ih _ x (by simp [hx])
    | readMeta p => exact ih _ x hx

/-- Parsing the canonical block ID string reduces the per-block model to
its post-parse stage. -/
theorem processBlock_ulid {cfg : Config} {mk : Nat → BlockMarkers} {env : BlockEnv}
    {t : Str} {B : Nat} (hB : B < 2 ^ 128) :
    processBlock cfg mk env t (ulidString B) = processBlockWithID cfg mk env t B := by
  unfold processBlock
  rw [ulidParse_ulidString hB]

/-!
Reduction lemmas for the eligibility stages.
-/

/-- With a non-positive threshold the minimum-duration step does nothing. -/
theorem minDurationCheck_off {cfg : Config} {env : BlockEnv} {t : Str} {B : Nat}
    (h : ¬ 0 < cfg.minBlockDuration) : minDurationCheck cfg env t B = (none, []) := by
  unfold minDurationCheck
  rw [if_neg h]

/-- A failing metadata read aborts the block at the minimum-duration step. -/
theorem minDurationCheck_readFail {cfg : Config} {env : BlockEnv} {t : Str} {B : Nat}
    (h0 : 0 < cfg.minBlockDuration) (hm : env.metaRead = none) :
    minDurationCheck cfg env t B
      = (some (.failed (.metaReadFailed (metaPathOf t B))), [.readMeta (metaPathOf t B)]) := by
  unfold minDurationCheck
  rw [if_pos h0, hm]

/-- A too-short block is skipped at the minimum-duration step. -/
theorem minDurationCheck_short {cfg : Config} {env : BlockEnv} {t : Str} {B : Nat} {m : Meta}
    (h0 : 0 < cfg.minBlockDuration) (hm : env.metaRead = some m)
    (hd : blockDurationOf m < cfg.minBlockDuration) :
    minDurationCheck cfg env t B = (some .skippedTooShort, [.readMeta (metaPathOf t B)]) := by
  unfold minDurationCheck
  rw [if_pos h0, hm]
  dsimp only
  rw [if_pos hd]

/-- A long-enough block passes the minimum-duration step. -/
theorem minDurationCheck_long {cfg : Config} {env : BlockEnv} {t : Str} {B : Nat} {m : Meta}
    (h0 : 0 < cfg.minBlockDuration) (hm : env.metaRead = some m)
    (hd : ¬ blockDurationOf m < cfg.minBlockDuration) :
    minDurationCheck cfg env t B = (none, [.readMeta (metaPathOf t B)]) := by
  unfold minDurationCheck
  rw [if_pos h0, hm]
  dsimp only
  rw [if_neg hd]

/-- The only skip outcome the minimum-duration step can produce is the
too-short skip or a metadata-read failure. -/
theorem minDurationCheck_some {cfg : Config} {env : BlockEnv} {t : Str} {B : Nat} {o : PBOutcome}
    {effs : List Effect} (h : minDurationCheck cfg env t B = (some o, effs)) :
    o = .skippedTooShort ∨ ∃ e, o = .failed e := by
  unfold minDurationCheck at h
  by_cases h0 : 0 < cfg.minBlockDuration
  · rw [if_pos h0] at h
    cases hm : env.metaRead with
    | none =>
      rw [hm] at h
      simp only [Prod.mk.injEq, Option.some.injEq] at h
      exact Or.inr ⟨_, h.1.symm⟩
    | some m =>
      rw [hm] at h
      dsimp only at h
      by_cases hd : blockDurationOf m < cfg.minBlockDuration
      · rw [if_pos hd] at h
        simp only [Prod.mk.injEq, Option.some.injEq] at h
        exact Or.inl h.1.symm
      · rw [if_neg hd] at h
        simp at h
  · rw [if_neg h0] at h
    simp at h

/-- The final phase never produces a too-short, already-copied or
marked-for-deletion skip. -/
theorem copyPhase_outcomes {cfg : Config} {env : BlockEnv} {t : Str} {B : Nat}
    {effs : List Effect} :
    (copyPhase cfg env t B effs).1 = .skippedDryRun ∨ (copyPhase cfg env t B effs).1 = .copiedOk ∨
      ∃ e, (copyPhase cfg env t B effs).1 = .failed e := by
  unfold copyPhase
  by_cases hd : cfg.dryRun = true
  · rw [if_pos hd]
    exact Or.inl rfl
  · rw [if_neg hd]
    rcases hc : copySingleBlock env t B with ⟨r, ceffs⟩
    cases r with
    | error e => exact Or.inr (Or.inr ⟨e, rfl⟩)
    | ok u =>
      dsimp only
      by_cases hw : env.markerWriteOk = true
      · rw [if_pos hw]
        exact Or.inr (Or.inl rfl)
      · rw [if_neg hw]
        exact Or.inr (Or.inr ⟨_, rfl⟩)

/-- Every effect of the final phase is either inherited, an object copy
of a listed path, or the completion-marker write. -/
theorem copyPhase_effects {cfg : Config} {env : BlockEnv} {t : Str} {B : Nat}
    {effs : List Effect} :
    ∀ e ∈ (copyPhase cfg env t B effs).2,
      e ∈ effs ∨ (∃ q, e = .copyObject (fullObjectPath t (ulidString B) q)) ∨
        e = .writeMarker (markerFullPath t B cfg.destBucket) := by
  intro e he
  unfold copyPhase at he
  by_cases hd : cfg.dryRun = true
  · rw [if_pos hd] at he
    exact Or.inl he
  · rw [if_neg hd] at he
    rcases hc : copySingleBlock env t B with ⟨r, ceffs⟩
    have hcef : ∀ x ∈ ceffs, ∃ q, x = Effect.copyObject (fullObjectPath t (ulidString B) q) := by
      intro x hx
      unfold copySingleBlock at hc
      cases hl : env.blockListing with
      | none =>
        rw [hl] at hc
        simp only [Prod.mk.injEq] at hc
        rw [← hc.2] at hx
        simp at hx
      | some paths =>
        rw [hl] at hc
        dsimp only at hc
        have := @copyLoop_effects env.copyOk t (ulidString B) (reorderPaths paths) x
        rw [hc] at this
        obtain ⟨q, _, hq⟩ := this hx
        exact ⟨q, hq⟩
    rw [hc] at he
    cases r with
    | error err =>
      dsimp only at he
      rcases List.mem_append.mp he with h1 | h2
      · exact Or.inl h1
      · exact Or.inr (Or.inl (hcef e h2))
    | ok u =>
      dsimp only at he
      by_cases hw : env.markerWriteOk = true
      · rw [if_pos hw] at he
        rcases List.mem_append.mp he with h1 | h2
        · rcases List.mem_append.mp h1 with h3 | h4
          · exact Or.inl h3
          · exact Or.inr (Or.inl (hcef e h4))
        · simp only [List.mem_singleton] at h2
          exact Or.inr (Or.inr h2)
      · rw [if_neg hw] at he
        rcases List.mem_append.mp he with h1 | h2
        · exact Or.inl h1
        · exact Or.inr (Or.inl (hcef e h2))

/-- Every effect of the block copier is an object copy of one path under
the block directory. -/
theorem copySingleBlock_effects {env : BlockEnv} {t : Str} {B : Nat} :
    ∀ e ∈ (copySingleBlock env t B).2,
      ∃ q, e = .copyObject (fullObjectPath t (ulidString B) q) := by
  intro e he
  unfold copySingleBlock at he
  cases hl : env.blockListing with
  | none => rw [hl] at he; simp at he
  | some paths =>
    rw [hl] at he
    dsimp only at he
    obtain ⟨q, _, hq⟩ := @copyLoop_effects env.copyOk t (ulidString B) (reorderPaths paths) e he
    exact ⟨q, hq⟩

/-- An object path of a block is never inside the tenant's markers
directory: its 8th character is a Crockford character of the block ID,
not the `'/'` that would close a `markers/` segment. -/
theorem blockObjectPath_not_marker (tenant : Str) (B : Nat) (q r : Str) :
    fullObjectPath tenant (ulidString B) q ≠ tenant ++ delimS ++ markersPathname ++ '/' :: r := by
  intro h
  unfold fullObjectPath at h
  simp only [List.append_assoc] at h
  have h2 : ulidString B ++ (delimS ++ q) = markersPathname ++ '/' :: r :=
    List.append_cancel_left (List.append_cancel_left h)
  have hlt : 7 < (ulidString B).length := by rw [ulidString_length]; norm_num
  have h7 : (ulidString B ++ (delimS ++ q))[7]? = (ulidString B)[7]? :=
    List.getElem?_append_left hlt
  have h7r : (markersPathname ++ '/' :: r)[7]? = some '/' := by
    rw [List.getElem?_append_right (by decide)]
    rw [show (7 : Nat) - markersPathname.length = 0 from by decide]
    simp
  rw [h2, h7r, List.getElem?_eq_getElem hlt] at h7
  have hc : (ulidString B)[7] = '/' := by
    simpa using h7.symm
  exact ulidString_no_slash B _ (List.getElem_mem hlt) hc

/-- Removing one position and appending the metadata filename keeps the
length of the path list, so the reordering loop's index gains on the
list length at every iteration. -/
theorem removeAt_append_length {l : List Str} {ix : Nat} (h : ix < l.length) :
    (removeAt l ix ++ [metaFilename]).length = l.length := by
  simp [removeAt]
  omega

/-- The fuel of `reorderGo` is irrelevant as soon as it exceeds the
remaining index range: the model agrees with the Go loop on every input. -/
theorem reorderGo_fuel : ∀ (fuel fuel' : Nat) (paths : List Str) (ix : Nat),
    paths.length - ix < fuel → paths.length - ix < fuel' →
    reorderGo fuel paths ix = reorderGo fuel' paths ix := by
  intro fuel
  induction fuel with
  | zero => intro fuel' paths ix h _; omega
  | succ f ih =>
    intro fuel' paths ix h h'
    cases fuel' with
    | zero => omega
    | succ f' =>
      by_cases hlt : ix < paths.length
      · unfold reorderGo
        rw [dif_pos hlt, dif_pos hlt]
        by_cases hmeta : paths.get ⟨ix, hlt⟩ = metaFilename ∧ ix < paths.length - 1
        · rw [if_pos hmeta, if_pos hmeta]
          apply ih
          · rw [removeAt_append_length hlt]; omega
          · rw [removeAt_append_length hlt]; omega
        · rw [if_neg hmeta, if_neg hmeta]
          apply ih <;> omega
      · unfold reorderGo
        rw [dif_neg hlt, dif_neg hlt]

/-!
Claim theorems.
-/

/-- C1: the claim states that in every successful Block Copier run the
metadata descriptor (`meta.json`) is the last object copied.  The code
violates this: the reordering loop of `copySingleBlock` advances its
index both in the `for` post statement and in the `else` branch, so it
inspects only every other position and never examines `meta.json` when
it sits at an odd index.  This theorem evaluates the copier on the
listing `[chunks/000001, chunks/000002, index, meta.json,
no-compact-mark.json]`: the run succeeds, yet `meta.json` is copied
fourth of five, before `no-compact-mark.json`, and the reordering loop
leaves the listing untouched. -/
theorem C1_meta_json_not_copied_last :
    reorderPaths ["chunks/000001".toList, "chunks/000002".toList, "index".toList,
        "meta.json".toList, "no-compact-mark.json".toList]
      = ["chunks/000001".toList, "chunks/000002".toList, "index".toList,
        "meta.json".toList, "no-compact-mark.json".toList]
    ∧ copySingleBlock
        ⟨some ["chunks/000001".toList, "chunks/000002".toList, "index".toList,
          "meta.json".toList, "no-compact-mark.json".toList], none, fun _ => true, true⟩
        "t".toList 1
      = (.ok (),
        [.copyObject "t/00000000000000000000000001/chunks/000001".toList,
          .copyObject "t/00000000000000000000000001/chunks/000002".toList,
          .copyObject "t/00000000000000000000000001/index".toList,
          .copyObject "t/00000000000000000000000001/meta.json".toList,
          .copyObject "t/00000000000000000000000001/no-compact-mark.json".toList])
    ∧ metaFilename ∈ ["chunks/000001".toList, "chunks/000002".toList, "index".toList,
        "meta.json".toList, "no-compact-mark.json".toList]
    ∧ [Effect.copyObject "t/00000000000000000000000001/chunks/000001".toList,
        .copyObject "t/00000000000000000000000001/chunks/000002".toList,
        .copyObject "t/00000000000000000000000001/index".toList,
        .copyObject "t/00000000000000000000000001/meta.json".toList,
        .copyObject "t/00000000000000000000000001/no-compact-mark.json".toList].getLast?
      ≠ some (.copyObject ("t/00000000000000000000000001/".toList ++ metaFilename)) := by
  refine ⟨by decide, ?_, by decide, by decide⟩
  rfl

/-- C2 counterexample: the claim, as stated, asserts that every string
without the 3-part shape `<validBlockID>-copied-<bucket>` decodes to
`(false, zero ULID, "")`.  The encoder's own output refutes it: splitting
`markers/00000000000000000000000001-copied-tb` on `'-'` gives a first
part of 34 characters, which is not a valid 26-character ULID, yet the
decoder answers `(true, B, "tb")` because it takes the base name of the
first part before parsing. -/
theorem C2_counterexample :
    (goSplitN (CopiedToBucketMarkFilename 1 "tb".toList) 3).head?
      = some "markers/00000000000000000000000001".toList
    ∧ "markers/00000000000000000000000001".toList.length ≠ 26
    ∧ IsCopiedToBucketMarkFilename (CopiedToBucketMarkFilename 1 "tb".toList)
      = (true, 1, "tb".toList)
    ∧ ((true : Bool), (1 : Nat), "tb".toList) ≠ ((false : Bool), (0 : Nat), ([] : Str)) := by
  refine ⟨by decide, by decide, ?_, by decide⟩
  decide

/-- C2 (amended): encoding then decoding yields exactly `(true, B, T)`
for every ULID value `B` and every bucket name `T`; and every string
whose split on `'-'` into at most three parts does not give three parts
with middle `"copied"` and a first part whose base name (final path
component) parses as a ULID (length 26, first character at most `'7'`)
decodes to `(false, zero ULID, "")`. -/
theorem C2_marker_roundtrip_amended :
    (∀ B : Nat, B < 2 ^ 128 → ∀ T : Str,
      IsCopiedToBucketMarkFilename (CopiedToBucketMarkFilename B T) = (true, B, T))
    ∧ (∀ s : Str,
        (∀ p0 t, goSplitN s 3 = [p0, copiedMarkFilename, t] →
          ulidParse (goFilepathBase p0) = none) →
        IsCopiedToBucketMarkFilename s = (false, 0, [])) :=
  ⟨fun _ hB T => decode_encode_marker hB T, fun _ h => decode_fails h⟩

/-- C2 witness: the amended theorem applied at block ID `5`, bucket
`"dest"`, and at the non-matching string `"foo.json"`. -/
theorem C2_witness :
    IsCopiedToBucketMarkFilename (CopiedToBucketMarkFilename 5 "dest".toList)
      = (true, 5, "dest".toList)
    ∧ IsCopiedToBucketMarkFilename "foo.json".toList = (false, 0, []) := by
  constructor
  · exact C2_marker_roundtrip_amended.1 5 (by norm_num) "dest".toList
  · refine C2_marker_roundtrip_amended.2 "foo.json".toList ?_
    intro p0 t h
    rw [show goSplitN "foo.json".toList 3 = ["foo.json".toList] from by decide] at h
    simp at h

/-- C3: a block whose resolved marker state says copied-to-this-
destination is skipped at eligibility step 1 with no effects and a
success return; and the marker resolver resolves `copied = true` for any
listing containing the block's relative copy-marker name for the
configured destination bucket, which is exactly what the next cycle
lists after a successful copy. -/
theorem C3_idempotent_skip :
    (∀ (cfg : Config) (mk : Nat → BlockMarkers) (env : BlockEnv) (tenant : Str) (B : Nat),
      B < 2 ^ 128 → (mk B).copied = true →
      processBlock cfg mk env tenant (ulidString B) = (.skippedAlreadyCopied, []) ∧
        PBOutcome.isSuccess (processBlock cfg mk env tenant (ulidString B)).1 = true)
    ∧ (∀ (names : List Str) (dest : Str) (B : Nat), B < 2 ^ 128 →
        relCopiedMarkName B dest ∈ names →
        (resolveMarkers names dest B).copied = true) := by
  constructor
  · intro cfg mk env tenant B hB hc
    have he : processBlock cfg mk env tenant (ulidString B) = (.skippedAlreadyCopied, []) := by
      rw [processBlock_ulid hB]
      unfold processBlockWithID
      rw [if_pos hc]
    refine ⟨he, ?_⟩
    rw [he]
    rfl
  · intro names dest B hB hmem
    exact resolveMarkers_copied_of_mem hB hmem

/-- C3 witness: the theorem applied to a concrete copied block and a
concrete marker listing. -/
theorem C3_witness :
    processBlock ⟨0, false, "d".toList⟩ (fun _ => ⟨false, true⟩)
        ⟨none, none, fun _ => true, true⟩ "t".toList (ulidString 1)
      = (.skippedAlreadyCopied, [])
    ∧ (resolveMarkers [relCopiedMarkName 1 "d".toList] "d".toList 1).copied = true := by
  constructor
  · exact (C3_idempotent_skip.1 ⟨0, false, "d".toList⟩ (fun _ => ⟨false, true⟩)
      ⟨none, none, fun _ => true, true⟩ "t".toList 1 (by norm_num) rfl).1
  · exact C3_idempotent_skip.2 [relCopiedMarkName 1 "d".toList] "d".toList 1 (by norm_num)
      (by simp)

/-- C4: the eligibility checks run in the fixed order copied-marker,
deletion-marker, minimum-duration, dry-run, short-circuiting at the
first match; in particular a block carrying both a matching copy marker
and a deletion marker is skipped as already copied, not as marked for
deletion. -/
theorem C4_filter_precedence :
    ∀ (cfg : Config) (mk : Nat → BlockMarkers) (env : BlockEnv) (tenant : Str) (B : Nat)
      (m : Meta), B < 2 ^ 128 →
      ((mk B).copied = true →
        processBlock cfg mk env tenant (ulidString B) = (.skippedAlreadyCopied, []))
      ∧ ((mk B).copied = true → (mk B).deletion = true →
          (processBlock cfg mk env tenant (ulidString B)).1 = .skippedAlreadyCopied ∧
            (processBlock cfg mk env tenant (ulidString B)).1 ≠ .skippedMarkedForDeletion)
      ∧ ((mk B).copied = false → (mk B).deletion = true →
          processBlock cfg mk env tenant (ulidString B) = (.skippedMarkedForDeletion, []))
      ∧ ((mk B).copied = false → (mk B).deletion = false → 0 < cfg.minBlockDuration →
          env.metaRead = some m → blockDurationOf m < cfg.minBlockDuration →
          processBlock cfg mk env tenant (ulidString B)
            = (.skippedTooShort, [.readMeta (metaPathOf tenant B)]))
      ∧ ((mk B).copied = false → (mk B).deletion = false → cfg.dryRun = true →
          (¬ 0 < cfg.minBlockDuration ∨
            (env.metaRead = some m ∧ ¬ blockDurationOf m < cfg.minBlockDuration)) →
          (processBlock cfg mk env tenant (ulidString B)).1 = .skippedDryRun) := by
  intro cfg mk env tenant B m hB
  rw [processBlock_ulid hB]
  have hcopied : ∀ h : (mk B).copied = true,
      processBlockWithID cfg mk env tenant B = (.skippedAlreadyCopied, []) := by
    intro h
    unfold processBlockWithID
    rw [if_pos h]
  refine ⟨hcopied, ?_, ?_, ?_, ?_⟩
  · intro hc _
    rw [hcopied hc]
    exact ⟨rfl, by simp⟩
  · intro hc hd
    unfold processBlockWithID
    rw [if_neg (by simp [hc]), if_pos hd]
  · intro hc hd h0 hm hdur
    unfold processBlockWithID
    rw [if_neg (by simp [hc]), if_neg (by simp [hd]),
      minDurationCheck_short h0 hm hdur]
  · intro hc hd hdry hcase
    unfold processBlockWithID
    rw [if_neg (by simp [hc]), if_neg (by simp [hd])]
    have hgoal : ∀ effs : List Effect,
        (copyPhase cfg env tenant B effs).1 = .skippedDryRun := by
      intro effs
      unfold copyPhase
      rw [if_pos hdry]
    rcases hcase with h0 | ⟨hm, hdur⟩
    · rw [minDurationCheck_off h0]
      exact hgoal []
    · by_cases h0 : 0 < cfg.minBlockDuration
      · rw [minDurationCheck_long h0 hm hdur]
        exact hgoal [.readMeta (metaPathOf tenant B)]
      · rw [minDurationCheck_off h0]
        exact hgoal []

/-- C4 witness: the theorem applied to a block with both markers set and
to concrete instances of the remaining steps. -/
theorem C4_witness :
    processBlock ⟨0, false, "d".toList⟩ (fun _ => ⟨true, true⟩)
        ⟨none, none, fun _ => true, true⟩ "t".toList (ulidString 1)
      = (.skippedAlreadyCopied, [])
    ∧ processBlock ⟨0, false, "d".toList⟩ (fun _ => ⟨true, false⟩)
        ⟨none, none, fun _ => true, true⟩ "t".toList (ulidString 1)
      = (.skippedMarkedForDeletion, []) := by
  constructor
  · exact (C4_filter_precedence ⟨0, false, "d".toList⟩ (fun _ => ⟨true, true⟩)
      ⟨none, none, fun _ => true, true⟩ "t".toList 1 ⟨0, 0⟩ (by norm_num)).1 rfl
  · exact (C4_filter_precedence ⟨0, false, "d".toList⟩ (fun _ => ⟨true, false⟩)
      ⟨none, none, fun _ => true, true⟩ "t".toList 1 ⟨0, 0⟩ (by norm_num)).2.2.1 rfl rfl

/-- C5: a tenant is processed exactly when the enabled list is empty or
contains it, and the disabled list is empty or does not contain it; with
enabled `{a, b}` and disabled `{b}`, tenant `a` is included while `b`
and `c` are excluded. -/
theorem C5_allow_deny :
    (∀ (enabled disabled : List Str) (t : Str),
      isAllowedUser enabled disabled t = true ↔
        ((enabled = [] ∨ t ∈ enabled) ∧ (disabled = [] ∨ t ∉ disabled)))
    ∧ isAllowedUser ["a".toList, "b".toList] ["b".toList] "a".toList = true
    ∧ isAllowedUser ["a".toList, "b".toList] ["b".toList] "b".toList = false
    ∧ isAllowedUser ["a".toList, "b".toList] ["b".toList] "c".toList = false := by
  refine ⟨?_, by decide, by decide, by decide⟩
  intro enabled disabled t
  constructor
  · intro ht
    unfold isAllowedUser at ht
    by_cases h1 : 0 < enabled.length ∧ t ∉ enabled
    · rw [if_pos h1] at ht
      exact absurd ht (by simp)
    · rw [if_neg h1] at ht
      by_cases h2 : 0 < disabled.length ∧ t ∈ disabled
      · rw [if_pos h2] at ht
        exact absurd ht (by simp)
      · push_neg at h1 h2
        constructor
        · rcases Nat.eq_zero_or_pos enabled.length with hz | hp
          · exact Or.inl (List.length_eq_zero.mp hz)
          · exact Or.inr (h1 hp)
        · rcases Nat.eq_zero_or_pos disabled.length with hz | hp
          · exact Or.inl (List.length_eq_zero.mp hz)
          · exact Or.inr (h2 hp)
  · rintro ⟨he, hd⟩
    have hA : ¬(0 < enabled.length ∧ t ∉ enabled) := by
      rintro ⟨hp, hnm⟩
      rcases he with h | h
      · rw [h] at hp; simp at hp
      · exact hnm h
    have hB : ¬(0 < disabled.length ∧ t ∈ disabled) := by
      rintro ⟨hp, hmem⟩
      rcases hd with h | h
      · rw [h] at hp; simp at hp
      · exact h hmem
    unfold isAllowedUser
    rw [if_neg hA, if_neg hB]

/-- C5 witness: the characterisation applied at empty allow and deny
lists. -/
theorem C5_witness : isAllowedUser [] [] "x".toList = true :=
  (C5_allow_deny.1 [] [] "x".toList).mpr (by simp)

/-- C6: with a positive minimum-duration threshold and a readable
metadata descriptor whose times stay in `int64` range, the block is
skipped as too short exactly when `(maxTime - minTime)` milliseconds,
converted to nanoseconds, is strictly below the threshold; with a
non-positive threshold the metadata descriptor is never read. -/
theorem C6_minimum_duration :
    ∀ (cfg : Config) (mk : Nat → BlockMarkers) (env : BlockEnv) (tenant : Str) (B : Nat)
      (m : Meta), B < 2 ^ 128 → (mk B).copied = false → (mk B).deletion = false →
      (0 < cfg.minBlockDuration → env.metaRead = some m →
        -(2 ^ 63) ≤ m.maxTime - m.minTime → m.maxTime - m.minTime < 2 ^ 63 →
        -(2 ^ 63) ≤ 1000000 * (m.maxTime - m.minTime) →
        1000000 * (m.maxTime - m.minTime) < 2 ^ 63 →
        ((processBlock cfg mk env tenant (ulidString B)).1 = .skippedTooShort ↔
          1000000 * (m.maxTime - m.minTime) < cfg.minBlockDuration))
      ∧ (¬ 0 < cfg.minBlockDuration →
          ∀ p, Effect.readMeta p ∉ (processBlock cfg mk env tenant (ulidString B)).2) := by
  intro cfg mk env tenant B m hB hc hd
  rw [processBlock_ulid hB]
  constructor
  · intro h0 hm hr1 hr2 hr3 hr4
    have hdur : blockDurationOf m = 1000000 * (m.maxTime - m.minTime) := by
      unfold blockDurationOf
      rw [wrap64_eq_self hr1 hr2, wrap64_eq_self hr3 hr4]
    unfold processBlockWithID
    rw [if_neg (by simp [hc]), if_neg (by simp [hd])]
    by_cases hshort : blockDurationOf m < cfg.minBlockDuration
    · rw [minDurationCheck_short h0 hm hshort]
      exact iff_of_true rfl (hdur ▸ hshort)
    · rw [minDurationCheck_long h0 hm hshort]
      refine iff_of_false ?_ (hdur ▸ hshort)
      rcases @copyPhase_outcomes cfg env tenant B [.readMeta (metaPathOf tenant B)]
        with h | h | ⟨e, h⟩ <;>
        · intro hcon
          rw [show ((match ((none : Option PBOutcome), [Effect.readMeta (metaPathOf tenant B)]) with
            | (some o, effs) => (o, effs)
            | (none, effs) => copyPhase cfg env tenant B effs) : PBOutcome × List Effect)
            = copyPhase cfg env tenant B [.readMeta (metaPathOf tenant B)] from rfl] at hcon
          rw [hcon] at h
          simp at h
  · intro h0 p hp
    unfold processBlockWithID at hp
    rw [if_neg (by simp [hc]), if_neg (by simp [hd]), minDurationCheck_off h0] at hp
    have hp2 : Effect.readMeta p ∈ (copyPhase cfg env tenant B []).2 := hp
    rcases copyPhase_effects _ hp2 with h | ⟨q, h⟩ | h
    · simp at h
    · simp at h
    · simp [markerFullPath] at h

/-- C6 witness: with threshold 24h, a 23h block (`maxTime - minTime`
82800000 ms) is skipped as too short, a 25h block (90000000 ms) is not;
with threshold 0 no metadata read appears in the effect log. -/
theorem C6_witness :
    (processBlock ⟨86400000000000, true, "d".toList⟩ (fun _ => ⟨false, false⟩)
        ⟨none, some ⟨0, 82800000⟩, fun _ => true, true⟩ "t".toList (ulidString 1)).1
      = .skippedTooShort
    ∧ (processBlock ⟨86400000000000, true, "d".toList⟩ (fun _ => ⟨false, false⟩)
        ⟨none, some ⟨0, 90000000⟩, fun _ => true, true⟩ "t".toList (ulidString 1)).1
      ≠ .skippedTooShort
    ∧ Effect.readMeta (metaPathOf "t".toList 1) ∉
        (processBlock ⟨0, false, "d".toList⟩ (fun _ => ⟨false, false⟩)
          ⟨none, some ⟨0, 82800000⟩, fun _ => true, true⟩ "t".toList (ulidString 1)).2 := by
  refine ⟨?_, ?_, ?_⟩
  · exact ((C6_minimum_duration ⟨86400000000000, true, "d".toList⟩ (fun _ => ⟨false, false⟩)
      ⟨none, some ⟨0, 82800000⟩, fun _ => true, true⟩ "t".toList 1 ⟨0, 82800000⟩
      (by norm_num) rfl rfl).1 (by norm_num) rfl (by norm_num) (by norm_num) (by norm_num)
      (by norm_num)).mpr (by norm_num)
  · intro hcon
    have h := ((C6_minimum_duration ⟨86400000000000, true, "d".toList⟩ (fun _ => ⟨false, false⟩)
      ⟨none, some ⟨0, 90000000⟩, fun _ => true, true⟩ "t".toList 1 ⟨0, 90000000⟩
      (by norm_num) rfl rfl).1 (by norm_num) rfl (by norm_num) (by norm_num) (by norm_num)
      (by norm_num)).mp hcon
    norm_num at h
  · exact (C6_minimum_duration ⟨0, false, "d".toList⟩ (fun _ => ⟨false, false⟩)
      ⟨none, some ⟨0, 82800000⟩, fun _ => true, true⟩ "t".toList 1 ⟨0, 82800000⟩
      (by norm_num) rfl rfl).2 (by norm_num) (metaPathOf "t".toList 1)

/-- C7: the block copier aborts at the first failing object copy with an
error naming that object's full path, having copied exactly the objects
before it in the reordered sequence, and replaying its effect log never
removes an object already present in the destination. -/
theorem C7_first_failure_aborts :
    ∀ (env : BlockEnv) (tenant : Str) (B : Nat) (paths pre post : List Str) (p : Str),
      env.blockListing = some paths →
      reorderPaths paths = pre ++ p :: post →
      (∀ q ∈ pre, env.copyOk (fullObjectPath tenant (ulidString B) q) = true) →
      env.copyOk (fullObjectPath tenant (ulidString B) p) = false →
      copySingleBlock env tenant B
        = (.error (.objectCopyFailed (fullObjectPath tenant (ulidString B) p)),
          pre.map fun q => .copyObject (fullObjectPath tenant (ulidString B) q))
      ∧ (∀ (s : List Str × List Str) (x : Str), x ∈ s.1 →
          x ∈ (applyState (copySingleBlock env tenant B).2 s).1) := by
  intro env tenant B paths pre post p hl hre hpre hp
  have he : copySingleBlock env tenant B
      = (.error (.objectCopyFailed (fullObjectPath tenant (ulidString B) p)),
        pre.map fun q => .copyObject (fullObjectPath tenant (ulidString B) q)) := by
    unfold copySingleBlock
    rw [hl]
    dsimp only
    rw [hre]
    exact copyLoop_fail pre post hpre hp
  exact ⟨he, fun s x hx => applyState_dest_mono _ s x hx⟩

/-- C7 witness: a two-object block whose second object fails to copy. -/
theorem C7_witness :
    copySingleBlock
        ⟨some ["index".toList, "zzz".toList], none,
          (fun s => !(s == "t/00000000000000000000000001/zzz".toList)), true⟩
        "t".toList 1
      = (.error (.objectCopyFailed "t/00000000000000000000000001/zzz".toList),
        [.copyObject "t/00000000000000000000000001/index".toList]) := by
  have h := (C7_first_failure_aborts
    ⟨some ["index".toList, "zzz".toList], none,
      (fun s => !(s == "t/00000000000000000000000001/zzz".toList)), true⟩
    "t".toList 1 ["index".toList, "zzz".toList] ["index".toList] [] "zzz".toList
    rfl (by decide) (by decide) (by decide)).1
  rw [h]
  rfl

/-- C8: with dry-run enabled, every per-block run logs at most metadata
reads — no object copy and no marker write — so replaying its effects
leaves destination and marker state unchanged; a block that reaches
eligibility step 4 returns the dry-run skip, a success. -/
theorem C8_dry_run_no_writes :
    ∀ (cfg : Config) (mk : Nat → BlockMarkers) (env : BlockEnv) (tenant : Str) (B : Nat)
      (m : Meta), cfg.dryRun = true → B < 2 ^ 128 →
      (∀ e ∈ (processBlock cfg mk env tenant (ulidString B)).2, ∃ p, e = .readMeta p)
      ∧ (∀ s, applyState (processBlock cfg mk env tenant (ulidString B)).2 s = s)
      ∧ ((mk B).copied = false → (mk B).deletion = false →
          (¬ 0 < cfg.minBlockDuration ∨
            (env.metaRead = some m ∧ ¬ blockDurationOf m < cfg.minBlockDuration)) →
          (processBlock cfg mk env tenant (ulidString B)).1 = .skippedDryRun ∧
            PBOutcome.isSuccess (processBlock cfg mk env tenant (ulidString B)).1 = true) := by
  intro cfg mk env tenant B m hdry hB
  rw [processBlock_ulid hB]
  have hreads : ∀ e ∈ (processBlockWithID cfg mk env tenant B).2, ∃ p, e = .readMeta p := by
    intro e he
    unfold processBlockWithID at he
    by_cases hc : (mk B).copied = true
    · rw [if_pos hc] at he
      simp at he
    · rw [if_neg hc] at he
      by_cases hd : (mk B).deletion = true
      · rw [if_pos hd] at he
        simp at he
      · rw [if_neg hd] at he
        have heffs := @minDurationCheck_effects cfg env tenant B
        rcases hm : minDurationCheck cfg env tenant B with ⟨o, effs⟩
        rw [hm] at he heffs
        cases o with
        | some o2 =>
          exact ⟨metaPathOf tenant B, heffs e he⟩
        | none =>
          have he2 : e ∈ (copyPhase cfg env tenant B effs).2 := he
          unfold copyPhase at he2
          rw [if_pos hdry] at he2
          exact ⟨metaPathOf tenant B, heffs e he2⟩
  refine ⟨hreads, fun s => applyState_of_reads hreads s, ?_⟩
  intro hc hd hcase
  have hout : (processBlockWithID cfg mk env tenant B).1 = .skippedDryRun := by
    unfold processBlockWithID
    rw [if_neg (by simp [hc]), if_neg (by simp [hd])]
    have hgoal : ∀ effs : List Effect,
        (copyPhase cfg env tenant B effs).1 = .skippedDryRun := by
      intro effs
      unfold copyPhase
      rw [if_pos hdry]
    rcases hcase with h0 | ⟨hm, hdur⟩
    · rw [minDurationCheck_off h0]
      exact hgoal []
    · by_cases h0 : 0 < cfg.minBlockDuration
      · rw [minDurationCheck_long h0 hm hdur]
        exact hgoal [.readMeta (metaPathOf tenant B)]
      · rw [minDurationCheck_off h0]
        exact hgoal []
  rw [hout]
  exact ⟨rfl, rfl⟩

/-- C8 witness: a dry run on an eligible block (threshold disabled)
returns the dry-run skip with an empty effect log. -/
theorem C8_witness :
    (processBlock ⟨0, true, "d".toList⟩ (fun _ => ⟨false, false⟩)
        ⟨some ["index".toList], none, fun _ => true, true⟩ "t".toList (ulidString 1)).1
      = .skippedDryRun
    ∧ applyState (processBlock ⟨0, true, "d".toList⟩ (fun _ => ⟨false, false⟩)
        ⟨some ["index".toList], none, fun _ => true, true⟩ "t".toList (ulidString 1)).2
        (["existing".toList], ["m".toList])
      = (["existing".toList], ["m".toList]) := by
  constructor
  · exact ((C8_dry_run_no_writes ⟨0, true, "d".toList⟩ (fun _ => ⟨false, false⟩)
      ⟨some ["index".toList], none, fun _ => true, true⟩ "t".toList 1 ⟨0, 0⟩ rfl
      (by norm_num)).2.2 rfl rfl (Or.inl (by norm_num))).1
  · exact (C8_dry_run_no_writes ⟨0, true, "d".toList⟩ (fun _ => ⟨false, false⟩)
      ⟨some ["index".toList], none, fun _ => true, true⟩ "t".toList 1 ⟨0, 0⟩ rfl
      (by norm_num)).2.1 (["existing".toList], ["m".toList])

/-- C9: a per-block run that ends with a completed copy performs exactly
one source-bucket write, the completion marker at
`<tenant>/markers/<blockID>-copied-<destinationBucket>`, and every
destination-bucket write stays inside the block directory, never inside
the tenant's markers path. -/
theorem C9_marker_written_to_source :
    ∀ (cfg : Config) (mk : Nat → BlockMarkers) (env : BlockEnv) (tenant : Str) (B : Nat),
      B < 2 ^ 128 →
      (processBlock cfg mk env tenant (ulidString B)).1 = .copiedOk →
      sourceWrites (processBlock cfg mk env tenant (ulidString B)).2
        = [markerFullPath tenant B cfg.destBucket]
      ∧ markerFullPath tenant B cfg.destBucket
          = tenant ++ delimS ++ markersPathname ++ '/' :: relCopiedMarkName B cfg.destBucket
      ∧ (∀ x ∈ destWrites (processBlock cfg mk env tenant (ulidString B)).2,
          ∀ r : Str, x ≠ tenant ++ delimS ++ markersPathname ++ '/' :: r) := by
  intro cfg mk env tenant B hB hout
  rw [processBlock_ulid hB] at hout ⊢
  have hmfp : markerFullPath tenant B cfg.destBucket
      = tenant ++ delimS ++ markersPathname ++ '/' :: relCopiedMarkName B cfg.destBucket := by
    rw [markerFullPath, copiedMark_eq_markers_rel]
    simp [List.append_assoc]
  unfold processBlockWithID at hout ⊢
  by_cases hc : (mk B).copied = true
  · rw [if_pos hc] at hout
    simp at hout
  rw [if_neg hc] at hout ⊢
  by_cases hd : (mk B).deletion = true
  · rw [if_pos hd] at hout
    simp at hout
  rw [if_neg hd] at hout ⊢
  have heffs := @minDurationCheck_effects cfg env tenant B
  rcases hm : minDurationCheck cfg env tenant B with ⟨o, effs⟩
  rw [hm] at hout heffs
  cases o with
  | some o2 =>
    dsimp only at hout
    rcases minDurationCheck_some hm with h | ⟨e, h⟩ <;> rw [h] at hout <;> simp at hout
  | none =>
    dsimp only at hout heffs ⊢
    have hcef := @copySingleBlock_effects env tenant B
    unfold copyPhase at hout ⊢
    by_cases hdry : cfg.dryRun = true
    · rw [if_pos hdry] at hout
      simp at hout
    rw [if_neg hdry] at hout ⊢
    rcases hcs : copySingleBlock env tenant B with ⟨r, ceffs⟩
    rw [hcs] at hout hcef
    cases r with
    | error e =>
      dsimp only at hout
      simp at hout
    | ok u =>
      dsimp only at hout ⊢
      by_cases hw : env.markerWriteOk = true
      · rw [if_pos hw] at hout ⊢
        dsimp only at hout ⊢
        refine ⟨?_, hmfp, ?_⟩
        · unfold sourceWrites
          rw [List.filterMap_append, List.filterMap_append]
          have h1 : ∀ a ∈ effs,
              (match a.writeTarget with
                | some (BucketId.source, p) => some p
                | _ => none) = (none : Option Str) := by
            intro a ha
            rw [heffs a ha]
            rfl
          have h2 : ∀ a ∈ ceffs,
              (match a.writeTarget with
                | some (BucketId.source, p) => some p
                | _ => none) = (none : Option Str) := by
            intro a ha
            obtain ⟨q, hq⟩ := hcef a ha
            rw [hq]
            rfl
          rw [List.filterMap_eq_nil_iff.mpr h1, List.filterMap_eq_nil_iff.mpr h2]
          rfl
        · intro x hx r
          unfold destWrites at hx
          rw [List.filterMap_append, List.filterMap_append] at hx
          rcases List.mem_append.mp hx with hx1 | hx2
          · rcases List.mem_append.mp hx1 with hx3 | hx4
            · obtain ⟨e, he, hfe⟩ := List.mem_filterMap.mp hx3
              rw [heffs e he] at hfe
              simp [Effect.writeTarget] at hfe
            · obtain ⟨e, he, hfe⟩ := List.mem_filterMap.mp hx4
              obtain ⟨q, hq⟩ := hcef e he
              rw [hq] at hfe
              simp only [Effect.writeTarget, Option.some.injEq] at hfe
              rw [← hfe]
              exact blockObjectPath_not_marker tenant B q r
          · obtain ⟨e, he, hfe⟩ := List.mem_filterMap.mp hx2
            simp only [List.mem_singleton] at he
            rw [he] at hfe
            simp [Effect.writeTarget] at hfe
      · rw [if_neg hw] at hout
        simp at hout

/-- C9 witness: a concrete completed copy writes exactly the completion
marker `t/markers/<id>-copied-d` to the source bucket, and the one
destination write is not under the tenant's markers path. -/
theorem C9_witness :
    sourceWrites (processBlock ⟨0, false, "d".toList⟩ (fun _ => ⟨false, false⟩)
        ⟨some ["index".toList], none, fun _ => true, true⟩ "t".toList (ulidString 1)).2
      = [markerFullPath "t".toList 1 "d".toList]
    ∧ "t/00000000000000000000000001/index".toList
        ≠ "t".toList ++ delimS ++ markersPathname ++ '/' :: "r".toList := by
  have h := C9_marker_written_to_source ⟨0, false, "d".toList⟩ (fun _ => ⟨false, false⟩)
    ⟨some ["index".toList], none, fun _ => true, true⟩ "t".toList 1 (by norm_num) rfl
  refine ⟨h.1, ?_⟩
  have h2 := h.2.2 "t/00000000000000000000000001/index".toList (by decide) "r".toList
  exact h2

/-- C10: the startup validation exits with status 1 (non-zero) exactly
when the source bucket is empty, the destination bucket is empty, or the
two are equal, and only proceeds to the copy cycles otherwise. -/
theorem C10_bucket_validation :
    ∀ src dest : Str,
      (mainDecision src dest = .earlyExit 1 ↔ (src = [] ∨ dest = [] ∨ src = dest))
      ∧ (mainDecision src dest = .proceed ↔ ¬(src = [] ∨ dest = [] ∨ src = dest))
      ∧ (1 : Nat) ≠ 0 := by
  intro src dest
  unfold mainDecision
  by_cases h : src = [] ∨ dest = [] ∨ src = dest
  · rw [if_pos h]
    exact ⟨iff_of_true rfl h, iff_of_false (by decide) (not_not_intro h), by norm_num⟩
  · rw [if_neg h]
    exact ⟨iff_of_false (by decide) h, iff_of_true rfl h, by norm_num⟩

/-- C10 witness: an empty source bucket exits early with status 1, a
valid configuration proceeds. -/
theorem C10_witness :
    mainDecision [] "d".toList = .earlyExit 1
    ∧ mainDecision "s".toList "d".toList = .proceed := by
  constructor
  · exact (C10_bucket_validation [] "d".toList).1.mpr (Or.inl rfl)
  · exact (C10_bucket_validation "s".toList "d".toList).2.1.mpr (by decide)
